import Mathlib

/-!
Verification development for a Japanese furigana / pitch-accent toolkit.

Python strings are modelled as `List Char`.  Python `int` indices are
modelled as `Int` (Python uses `-1` sentinels and negative wrap-around
indexing).  Fallible Python code (exceptions) is modelled with `Option`:
`none` means the Python code raises.

The definitions below are shallow embeddings of:
  - helpers/mingle_readings.py  (furigana parsing and merging)
  - helpers/common_kana.py      (reading alignment for inflected forms)
  - database.py                 (accent corpus parsing, HTML rendering,
                                 derived database build / load)
-/

/-! ## Python string primitives -/

/-- Whitespace characters recognised by Python `str.split()` / `str.strip()`
(restricted to the ASCII whitespace actually occurring in this corpus). -/
def pyIsSpace (c : Char) : Bool :=
  c = ' ' ∨ c = '\t' ∨ c = '\n' ∨ c = '\r' ∨ c = '\x0b' ∨ c = '\x0c'

/-- Python `str.strip()`. -/
def pyStrip (l : List Char) : List Char :=
  ((l.dropWhile pyIsSpace).reverse.dropWhile pyIsSpace).reverse

/-- Helper for `splitOnChar`: accumulates the current field (reversed). -/
def splitOnCharAux (sep : Char) : List Char → List Char → List (List Char)
  | [], acc => [acc.reverse]
  | c :: rest, acc =>
    if c = sep then acc.reverse :: splitOnCharAux sep rest []
    else splitOnCharAux sep rest (c :: acc)

/-- Python `str.split(sep)` for a one-character separator: keeps empty
fields, `"".split(sep) = [""]`. -/
def splitOnChar (sep : Char) (l : List Char) : List (List Char) :=
  splitOnCharAux sep l []

/-- Helper for `splitWs`. -/
def splitWsAux : List Char → List Char → List (List Char)
  | [], acc => if acc.isEmpty then [] else [acc.reverse]
  | c :: rest, acc =>
    if pyIsSpace c then
      if acc.isEmpty then splitWsAux rest [] else acc.reverse :: splitWsAux rest []
    else splitWsAux rest (c :: acc)

/-- Python `str.split()` with no argument: splits on whitespace runs,
dropping empty fields. -/
def splitWs (l : List Char) : List (List Char) :=
  splitWsAux l []

/-- Python indexing `l[i]` with negative wrap-around; `none` models an
`IndexError`. -/
def pyGet (l : List Char) (i : Int) : Option Char :=
  if 0 ≤ i then l[i.toNat]?
  else if 0 ≤ (l.length : Int) + i then l[((l.length : Int) + i).toNat]?
  else none

/-- Python slice `l[:i]` (negative `i` counts from the end, clamped). -/
def sliceTo (l : List Char) (i : Int) : List Char :=
  l.take (if 0 ≤ i then i.toNat else ((l.length : Int) + i).toNat)

/-- Python slice `l[i:]` (negative `i` counts from the end, clamped). -/
def sliceFrom (l : List Char) (i : Int) : List Char :=
  l.drop (if 0 ≤ i then i.toNat else ((l.length : Int) + i).toNat)

/-! ## helpers/mingle_readings.py -/

/-- `SplitFurigana(head, reading, suffix)` from mingle_readings.py. -/
structure SplitFurigana where
  head : List Char
  reading : List Char
  suffix : List Char
deriving DecidableEq, Repr

/-- Result of `find_head_reading_suffix`: either a `SplitFurigana` triple or
the `NoFurigana` string subclass wrapping the whole text. -/
inductive FindResult where
  | split (f : SplitFurigana)
  | noFurigana (text : List Char)
deriving DecidableEq, Repr

/-- The `head` property: `NoFurigana.head` returns the whole string. -/
def FindResult.head : FindResult → List Char
  | .split f => f.head
  | .noFurigana t => t

/-- The `reading` property: in the source, `NoFurigana.reading` is defined
as an alias of `NoFurigana.head`, so it also returns the whole string. -/
def FindResult.reading : FindResult → List Char
  | .split f => f.reading
  | .noFurigana t => t

/-- The scanning loop of `find_head_reading_suffix`: walks the text with
index `i`, remembering the index of the last `[` seen (`start`, initially
`-1`), and stops at the first `]` (returning its index; `-1` if none). -/
def scanBrackets : List Char → Int → Int → Int × Int
  | [], _, start => (start, -1)
  | c :: rest, i, start =>
    let start' := if c = '[' then i else start
    if c = ']' then (start', i) else scanBrackets rest (i + 1) start'

/-- `find_head_reading_suffix(text)`: returns
`SplitFurigana(text[:start], text[start+1:end], text[end+1:])` when
`0 < start < end`, else `NoFurigana(text)`. -/
def find_head_reading_suffix (text : List Char) : FindResult :=
  let p := scanBrackets text 0 (-1)
  if 0 < p.1 ∧ p.1 < p.2 then
    .split ⟨text.take p.1.toNat, (text.take p.2.toNat).drop (p.1.toNat + 1),
            text.drop (p.2.toNat + 1)⟩
  else .noFurigana text

/-- The loop of `decompose_word` fused with `iter_split_parts`:
`isFirst` tracks `num == 0`.  A `NoFurigana` part goes to `head`/`reading`
when first, to `suffix` otherwise, and always stops the iteration; a
`SplitFurigana` part contributes its head and reading and iteration
continues on its suffix.  `fuel` bounds the recursion; each recursive call
is on a strictly shorter suffix, so `text.length + 1` fuel never runs out. -/
def decompose_loop : Nat → List Char → Bool → SplitFurigana
  | 0, _, _ => ⟨[], [], []⟩
  | fuel + 1, text, isFirst =>
    if text.isEmpty then ⟨[], [], []⟩
    else
      match find_head_reading_suffix text with
      | .noFurigana t => if isFirst then ⟨t, t, []⟩ else ⟨[], [], t⟩
      | .split f =>
        let rest := decompose_loop fuel f.suffix false
        ⟨f.head ++ rest.head, f.reading ++ rest.reading, rest.suffix⟩

/-- `decompose_word(text)` from mingle_readings.py. -/
def decompose_word (text : List Char) : SplitFurigana :=
  decompose_loop (text.length + 1) text true

/-- The alternatives separator `MULTIPLE_READING_SEP`. -/
def MULTIPLE_READING_SEP : Char := '・'

/-- Locates the body of a bracket group: splits `l` into
`body ++ ']' :: rest` where `body` contains neither `[` nor `]`; `none` if
a `[` occurs before any `]`, or no `]` exists.  This is how the regex
`\[[^\[\]]+?]` matches (non-greedy: the body ends at the first `]`). -/
def takeGroupBody : List Char → Option (List Char × List Char)
  | [] => none
  | c :: rest =>
    if c = '[' then none
    else if c = ']' then some ([], rest)
    else (takeGroupBody rest).map (fun p => (c :: p.1, p.2))

/-- The loop of `tie_inside_furigana`: scans the text; at each `[` that
starts a bracket group with a non-empty bracket-free body, replaces the
spaces inside that group with `MULTIPLE_READING_SEP` and continues after
the group (matching `re.sub(r"\[[^\[\]]+?]", fixup, s)` which replaces
non-overlapping leftmost matches).  `fuel` bounds the recursion; every
step consumes at least one character, so `l.length + 1` fuel suffices. -/
def tieAux : Nat → List Char → List Char
  | 0, l => l
  | fuel + 1, l =>
    match l with
    | [] => []
    | c :: rest =>
      if c = '[' then
        match takeGroupBody rest with
        | some (body, rest') =>
          if body.isEmpty then c :: tieAux fuel rest
          else
            '[' :: (body.map (fun d => if d = ' ' then MULTIPLE_READING_SEP else d)
              ++ ']' :: tieAux fuel rest')
        | none => c :: tieAux fuel rest
      else c :: tieAux fuel rest

/-- `tie_inside_furigana(s)` from mingle_readings.py. -/
def tie_inside_furigana (l : List Char) : List Char :=
  tieAux (l.length + 1) l

/-- `whitespace_split(furigana_notation)` from mingle_readings.py. -/
def whitespace_split (l : List Char) : List (List Char) :=
  splitWs (tie_inside_furigana l)

/-- `WordReading(word, reading)` from mingle_readings.py. -/
structure WordReading where
  word : List Char
  reading : List Char
deriving DecidableEq, Repr

/-- The `word` accumulator built by `word_reading`: concatenation of
`split.head + split.suffix` over the decomposed tokens. -/
def wr_word (text : List Char) : List Char :=
  ((whitespace_split text).map
    (fun t => (decompose_word t).head ++ (decompose_word t).suffix)).flatten

/-- The `reading` accumulator built by `word_reading`: concatenation of
`split.reading + split.suffix` over the decomposed tokens. -/
def wr_reading (text : List Char) : List Char :=
  ((whitespace_split text).map
    (fun t => (decompose_word t).reading ++ (decompose_word t).suffix)).flatten

/-- `word_reading(text)` from mingle_readings.py. -/
def word_reading (text : List Char) : WordReading :=
  if ¬(wr_reading text).isEmpty ∧ wr_word text ≠ wr_reading text then
    ⟨wr_word text, wr_reading text⟩
  else ⟨text, []⟩

/-- Order-preserving deduplication keeping the first occurrence, as done by
`dict.fromkeys` in `mingle_readings`.  The extra argument is the set of
elements already seen. -/
def dedupKeepFirst : List (List Char) → List (List Char) → List (List Char)
  | [], _ => []
  | x :: xs, seen =>
    if x ∈ seen then dedupKeepFirst xs seen else x :: dedupKeepFirst xs (x :: seen)

/-- Length of the shortest row; `zip(*rows)` truncates to this. -/
def minLen : List (List (List Char)) → Nat
  | [] => 0
  | x :: xs => xs.foldl (fun m r => Nat.min m r.length) x.length

/-- `zip(*rows)` from Python: the list of columns, truncated to the
shortest row (all rows have equal length at the call site). -/
def transposeMin (rows : List (List (List Char))) : List (List (List Char)) :=
  (List.range (minLen rows)).map (fun i => rows.map (fun row => row.getD i []))

/-- One iteration of the `for first, *rest in zip(*split)` loop of
`mingle_readings`: decomposes the first token of the column, joins the
deduplicated readings of all tokens with `sep`, and emits either
`" head[joined]suffix"` (using the first token's head and suffix) or the
bare head when the joined readings equal it. -/
def mingle_pack (sep : List Char) (col : List (List Char)) : List Char :=
  let first := decompose_word (col.headD [])
  let joined := List.intercalate sep
    (dedupKeepFirst (col.map (fun t => (decompose_word t).reading)) [])
  if joined ≠ first.head then
    ' ' :: (first.head ++ '[' :: (joined ++ ']' :: first.suffix))
  else first.head

/-- `mingle_readings(words_furigana, sep=", ")` from mingle_readings.py.
The source asserts `len(words_furigana) > 1`; the model is total and the
theorems carry that as a hypothesis. -/
def mingle_readings (sep : List Char) (ws : List (List Char)) : List Char :=
  let split := ws.map whitespace_split
  if (split.zip split.tail).any (fun p => p.1.length != p.2.length) then
    ws.headD []
  else ((transposeMin split).map (mingle_pack sep)).flatten


/-! ## helpers/common_kana.py -/

/-- Modelled from the spec: the kana-normalization oracle `to_katakana`
imported from the external `mecab_controller` package (not part of the
sources under verification).  Per the spec it is an injectable pure
function "text → text folding all kana to one canonical script": each
hiragana character (U+3041..U+3096) is shifted to its katakana counterpart
(U+30A1..U+30F6); every other character is left unchanged. -/
def kataChar (c : Char) : Char :=
  if 0x3041 ≤ c.toNat ∧ c.toNat ≤ 0x3096 then Char.ofNat (c.toNat + 0x60) else c

/-- Modelled from the spec: string-level kana normalization (see `kataChar`). -/
def to_katakana (l : List Char) : List Char :=
  l.map kataChar

/-- The `while` loop of `adjust_reading`: compares
`headword[idx_headword - 1]` with `headword_reading[idx_reading - 1]`
under the normalization `nc` (applied to one-character strings, as in the
source) and decrements both cursors while they match; stops returning the
cursor pair at the first mismatch; `none` models an `IndexError` (an index
below `-len`).  Python indexing wraps negative indices (`pyGet`).  `fuel`
bounds the recursion: starting from `ih = len(headword)` the loop raises
after at most `2*len(headword)+1` iterations, so the fuel passed by
`adjust_reading` is never exhausted. -/
def walk (nc : List Char → List Char) (hw rd : List Char) :
    Nat → Int → Int → Option (Int × Int)
  | 0, _, _ => none
  | fuel + 1, ih, ir =>
    match pyGet hw (ih - 1), pyGet rd (ir - 1) with
    | some a, some b =>
      if nc [a] = nc [b] then walk nc hw rd fuel (ih - 1) (ir - 1)
      else some (ih, ir)
    | _, _ => none

/-- `adjust_reading(raw_word, headword, headword_reading)` from
common_kana.py, parameterized by the injected normalization `nc`;
`none` models an uncaught `IndexError` from the suffix walk. -/
def adjust_reading (nc : List Char → List Char)
    (raw_word headword headword_reading : List Char) : Option (List Char) :=
  if nc headword = nc headword_reading then some raw_word
  else if nc headword = nc raw_word then some headword_reading
  else
    (walk nc headword headword_reading (2 * headword.length + 2)
        headword.length headword_reading.length).map
      (fun p => sliceTo headword_reading p.2 ++ sliceFrom raw_word p.1)

/-- Length of the maximal run of positionwise matches of two reversed
strings: `matchLenRev p xs ys` counts how many leading elements of `xs`
and `ys` match under `p`. -/
def matchLenRev (p : Char → Char → Bool) : List Char → List Char → Nat
  | a :: xs, b :: ys => if p a b then matchLenRev p xs ys + 1 else 0
  | _, _ => 0

/-- Length of the shared normalized trailing run of a headword and its
reading: the number of final characters that match pairwise under the
normalization `nc` (scanning from the ends). -/
def matchLen (nc : List Char → List Char) (hw rd : List Char) : Nat :=
  matchLenRev (fun a b => nc [a] == nc [b]) hw.reverse rd.reverse

/-! ## database.py -/

/-- The 19-field `AccentEntry` namedtuple from database.py. -/
structure AccentEntry where
  NID : List Char
  ID : List Char
  WAVname : List Char
  K_FLD : List Char
  ACT : List Char
  katakana_reading : List Char
  nhk : List Char
  kanjiexpr : List Char
  NHKexpr : List Char
  numberchars : List Char
  devoiced_pos : List Char
  nasalsoundpos : List Char
  majiri : List Char
  kaisi : List Char
  KWAV : List Char
  katakana_reading_alt : List Char
  akusentosuu : List Char
  bunshou : List Char
  accent : List Char
deriving DecidableEq, Repr

/-- The opening brace character (U+007B). -/
def lbrace : Char := Char.ofNat 123

/-- The closing brace character (U+007D). -/
def rbrace : Char := Char.ofNat 125

/-- Splits `l` at the first occurrence of `target` into the part before
and the part after; `none` if `target` does not occur. -/
def splitAtFirst (target : Char) : List Char → Option (List Char × List Char)
  | [] => none
  | c :: rest =>
    if c = target then some ([], rest)
    else (splitAtFirst target rest).map (fun p => (c :: p.1, p.2))

/-- `re.findall` for the patterns `{.*?,.*?}` / `(.*?,.*?)` used by
`make_accent_entry`: scans for an opening character; a match extends
(non-greedily) to the first `,` after it and then to the first closing
character after that comma; on a match the scan resumes after the match,
otherwise at the next character.  `fuel` bounds the recursion (each step
consumes at least one character, so `l.length + 1` suffices). -/
def findGroups (openC closeC : Char) : Nat → List Char → List (List Char)
  | 0, _ => []
  | fuel + 1, l =>
    match l with
    | [] => []
    | c :: rest =>
      if c = openC then
        match splitAtFirst ',' rest with
        | some (a, afterComma) =>
          match splitAtFirst closeC afterComma with
          | some (b, afterClose) =>
            (openC :: (a ++ ',' :: (b ++ [closeC]))) :: findGroups openC closeC fuel afterClose
          | none => findGroups openC closeC fuel rest
        | none => findGroups openC closeC fuel rest
      else findGroups openC closeC fuel rest

/-- Python `str.replace(pat, repl)` for a non-empty `pat`: replaces all
non-overlapping occurrences left to right.  `fuel` bounds the recursion
(each step consumes at least one character of `s`, so `s.length + 1`
suffices). -/
def replaceAll : Nat → List Char → List Char → List Char → List Char
  | 0, s, _, _ => s
  | _ + 1, [], _, _ => []
  | fuel + 1, c :: s, pat, repl =>
    if pat ≠ [] ∧ pat.isPrefixOf (c :: s) then
      repl ++ replaceAll fuel ((c :: s).drop pat.length) pat repl
    else c :: replaceAll fuel s pat repl

/-- The comma-escaping preprocessing of `make_accent_entry`: collects every
brace group and parenthesis group containing a comma (both scans run on
the original line), then sequentially replaces each collected substring by
a copy with its commas turned into semicolons. -/
def escape_commas (line : List Char) : List Char :=
  let subs := findGroups lbrace rbrace (line.length + 1) line
    ++ findGroups '(' ')' (line.length + 1) line
  subs.foldl
    (fun cur s =>
      replaceAll (cur.length + 1) cur s (s.map (fun c => if c = ',' then ';' else c)))
    line

/-- Builds the `AccentEntry` from exactly 19 fields (in field order). -/
def mkAccentEntry (f : List (List Char)) : AccentEntry :=
  ⟨f.getD 0 [], f.getD 1 [], f.getD 2 [], f.getD 3 [], f.getD 4 [],
   f.getD 5 [], f.getD 6 [], f.getD 7 [], f.getD 8 [], f.getD 9 [],
   f.getD 10 [], f.getD 11 [], f.getD 12 [], f.getD 13 [], f.getD 14 [],
   f.getD 15 [], f.getD 16 [], f.getD 17 [], f.getD 18 []⟩

/-- `make_accent_entry(csv_line)` from database.py: strips the line,
escapes commas inside brace/parenthesis groups, splits on commas and
builds the 19-field record; `none` models the `TypeError` raised by
`AccentEntry(*fields)` when the field count is not 19. -/
def make_accent_entry (csv_line : List Char) : Option AccentEntry :=
  let fields := splitOnChar ',' (escape_commas (pyStrip csv_line))
  if fields.length = 19 then some (mkAccentEntry fields) else none

/-- Python `str.endswith` for a two-character suffix. -/
def endsWith10 (l : List Char) : Bool :=
  ['1', '0'].isSuffixOf l

/-- `int(c)` for one character: the digit value, `none` on a non-digit
(modelling `ValueError`). -/
def charDigit (c : Char) : Option Nat :=
  if '0' ≤ c ∧ c ≤ '9' then some (c.toNat - '0'.toNat) else none

/-- `int(s)` restricted to non-empty digit strings; `none` models
`ValueError` on anything else. -/
def parseNatDigits (l : List Char) : Option Nat :=
  if l ≠ [] ∧ l.all (fun c => decide ('0' ≤ c ∧ c ≤ '9')) then
    some (l.foldl (fun n c => 10 * n + (c.toNat - '0'.toNat)) 0)
  else none

/-- Maps a fallible function over a list, failing on the first failure —
the Option-monad `mapM`, written out so that proofs can recurse on it.
Models a Python loop that raises on the first bad element. -/
def mapOption {α β : Type} (f : α → Option β) : List α → Option (List β)
  | [] => some []
  | a :: as =>
    match f a with
    | none => none
    | some b => (mapOption f as).map (fun bs => b :: bs)

/-- `format_nasal_or_devoiced_positions(expr)` from database.py: a
trailing literal `"10"` denotes position 10 and is stripped; the remainder
is split on `'0'` and each non-empty part parsed as a position. -/
def format_nasal_or_devoiced_positions (expr : List Char) : Option (List Nat) :=
  let p := if endsWith10 expr then (expr.dropLast.dropLast, [10]) else (expr, [])
  (mapOption parseNatDigits ((splitOnChar '0' p.1).filter (fun s => ¬s.isEmpty))).map
    (fun ps => p.2 ++ ps)

/-- One chunk appended to `result_str` by the rendering loop of
`format_entry`. -/
inductive Piece where
  | openOverline
  | closeOverline
  | plainChar (c : Char)
  | nopron (c : Char)
  | nasal
  | downstep
  | finalClose
deriving DecidableEq, Repr

/-- The literal HTML text of one piece. -/
def pieceStr : Piece → List Char
  | .openOverline => "<span class=\"overline\">".toList
  | .closeOverline => "</span>".toList
  | .plainChar c => [c]
  | .nopron c => "<span class=\"nopron\">".toList ++ [c] ++ "</span>".toList
  | .nasal => "<span class=\"nasal\">&#176;</span>".toList
  | .downstep => "</span>&#42780;".toList
  | .finalClose => "</span>".toList

/-- The `for idx, acc in …` loop of `format_entry`, produced as a list of
pieces.  Walks the kana and the accent pattern in lockstep (`idx` is the
current position, `flag` the `overline_flag` state); returns the pieces
and the final flag.  `none` models a `ValueError` from `int()` on a
non-digit accent character, or an exhausted accent pattern (impossible at
the call site, where the pattern is at least as long as the kana). -/
def render_chars (nasal devoiced : List Nat) :
    List Char → List Char → Nat → Bool → Option (List Piece × Bool)
  | [], _, _, flag => some ([], flag)
  | _ :: _, [], _, _ => none
  | c :: krest, a :: arest, idx, flag =>
    match charDigit a with
    | none => none
    | some d =>
      let p1 := if ¬flag ∧ 0 < d then [Piece.openOverline] else []
      let f1 := if ¬flag ∧ 0 < d then true else flag
      let p2 := if f1 ∧ d = 0 then [Piece.closeOverline] else []
      let f2 := if f1 ∧ d = 0 then false else f1
      let pc := if (idx + 1) ∈ devoiced then [Piece.nopron c] else [Piece.plainChar c]
      let pn := if (idx + 1) ∈ nasal then [Piece.nasal] else []
      let p3 := if d = 2 then [Piece.downstep] else []
      let f3 := if d = 2 then false else f2
      (render_chars nasal devoiced krest arest (idx + 1) f3).map
        (fun r => (p1 ++ p2 ++ pc ++ pn ++ p3 ++ r.1, r.2))

/-- `format_entry` from database.py at the piece level, taking the four
fields it reads (`katakana_reading_alt`, `accent`, `nasalsoundpos`,
`devoiced_pos`).  The accent pattern is the accent string left-padded with
zeros to the kana length; a still-open overline span is closed at the
end. -/
def format_entry_pieces (kana accent nasalcode devcode : List Char) :
    Option (List Piece) := do
  let accPattern := List.replicate (kana.length - accent.length) '0' ++ accent
  let nasal ← format_nasal_or_devoiced_positions nasalcode
  let devoiced ← format_nasal_or_devoiced_positions devcode
  let r ← render_chars nasal devoiced kana accPattern 0 false
  return r.1 ++ (if r.2 then [Piece.finalClose] else [])

/-- `format_entry` from database.py: the rendered HTML string. -/
def format_entry (kana accent nasalcode devcode : List Char) :
    Option (List Char) :=
  (format_entry_pieces kana accent nasalcode devcode).map
    (fun ps => (ps.map pieceStr).flatten)

/-- `format_entry(e)` applied to an `AccentEntry`. -/
def format_entry_e (e : AccentEntry) : Option (List Char) :=
  format_entry e.katakana_reading_alt e.accent e.nasalsoundpos e.devoiced_pos

/-! ## database.py: build and load of the derived database -/

/-- Lookup in an insertion-ordered dictionary (Python `dict`), modelled as
an association list. -/
def assocGet {α : Type} (d : List (List Char × α)) (key : List Char) : Option α :=
  match d with
  | [] => none
  | kv :: rest => if kv.1 = key then some kv.2 else assocGet rest key

/-- Assignment `d[key] = v` in an insertion-ordered dictionary: replaces
in place when the key exists, appends at the end otherwise. -/
def assocSet {α : Type} (d : List (List Char × α)) (key : List Char) (v : α) :
    List (List Char × α) :=
  match d with
  | [] => [(key, v)]
  | kv :: rest => if kv.1 = key then (key, v) :: rest else kv :: assocSet rest key v

/-- The registration step shared by `build_database` and
`read_derivative`: `d[key] = d.get(key, [])`, then append `v` to the
bucket unless already present. -/
def register {α : Type} [DecidableEq α] (d : List (List Char × List α))
    (key : List Char) (v : α) : List (List Char × List α) :=
  let cur := (assocGet d key).getD []
  assocSet d key (if v ∈ cur then cur else cur ++ [v])

/-- The key/value registrations performed for one parsed entry: the
`(katakana_reading, html)` pair is registered under `entry.nhk` first,
then under `entry.kanjiexpr`. -/
def entryRegs (e : AccentEntry) (html : List Char) :
    List (List Char × (List Char × List Char)) :=
  [(e.nhk, (e.katakana_reading, html)), (e.kanjiexpr, (e.katakana_reading, html))]

/-- `build_database` from database.py over a list of corpus lines (the
file I/O around it is excluded): parses every line, renders its HTML, and
registers the `(katakana_reading, html)` value under both the `nhk` and
`kanjiexpr` keys; `none` models an exception from parsing or rendering. -/
def build_database (lines : List (List Char)) :
    Option (List (List Char × List (List Char × List Char))) := do
  let entries ← mapOption make_accent_entry lines
  let pairs ← mapOption (fun e => (format_entry_e e).map (fun h => (e, h))) entries
  return (pairs.flatMap (fun p => entryRegs p.1 p.2)).foldl
    (fun d kv => register d kv.1 kv.2) []

/-- The rows of the persisted tab-separated file: one
`(key, katakana, html)` triple per bucket element, in dictionary order. -/
def dbRows (d : List (List Char × List (List Char × List Char))) :
    List (List Char × List Char × List Char) :=
  d.flatMap (fun kv => kv.2.map (fun p => (kv.1, p.1, p.2)))

/-- One line of `read_derivative`: `word, kana, pitch_html =
line.strip().split('\t')`; `none` models the `ValueError` when the line
does not have exactly three tab-separated fields. -/
def parseRow (line : List Char) : Option (List Char × List Char × List Char) :=
  match splitOnChar '\t' (pyStrip line) with
  | [w, k, h] => some (w, k, h)
  | _ => none

/-- The key/value registrations performed for one derivative row: the
`pitch_html` string (alone, not a pair) is registered under the `word` key
first, then under the `kana` key. -/
def rowRegs (row : List Char × List Char × List Char) :
    List (List Char × List Char) :=
  [(row.1, row.2.2), (row.2.1, row.2.2)]

/-- `read_derivative` from database.py over the lines of the persisted
file: each row registers its `pitch_html` under both the word and the kana
key, deduplicated per key. -/
def read_derivative (lines : List (List Char)) :
    Option (List (List Char × List (List Char))) :=
  (mapOption parseRow lines).map
    (fun rows => (rows.flatMap rowRegs).foldl (fun d kv => register d kv.1 kv.2) [])

/-- Modelled from the spec: the loaded mapping as the spec describes it —
"a mapping from a lookup key (orthographic or katakana form) to an ordered
list of distinct (katakana, renderedHTML) pairs" — i.e. each row registers
the `(kana, pitch_html)` pair (not the bare html) under both keys.  Used
only to contrast the specified shape with `read_derivative`. -/
def read_derivative_spec_pairs (lines : List (List Char)) :
    Option (List (List Char × List (List Char × List Char))) :=
  (mapOption parseRow lines).map
    (fun rows => (rows.flatMap
        (fun row => [(row.1, (row.2.1, row.2.2)), (row.2.1, (row.2.1, row.2.2))])).foldl
      (fun d kv => register d kv.1 kv.2) [])


/-! ## Lemmas about the bracket scan -/

/-- If the text contains no `]`, the scan reports `-1` as the end index. -/
theorem scan_snd_no_close (l : List Char) (i s : Int) (h : ']' ∉ l) :
    (scanBrackets l i s).2 = -1 := by
  induction l generalizing i s with
  | nil => rfl
  | cons c rest ih =>
    have hc : c ≠ ']' := fun e => h (e ▸ List.mem_cons_self c rest)
    simp only [scanBrackets, if_neg hc]
    exact ih _ _ (fun m => h (List.mem_cons_of_mem _ m))

/-- If no `[` occurs before the first `]`, the scan's start index stays at
its (non-positive) initial value. -/
theorem scan_fst_nonpos (l : List Char) (i s : Int) (hs : s ≤ 0)
    (h : '[' ∉ l.takeWhile (fun c => c != ']')) : (scanBrackets l i s).1 ≤ 0 := by
  induction l generalizing i s with
  | nil => exact hs
  | cons c rest ih =>
    by_cases hc : c = ']'
    · subst hc
      simp only [scanBrackets, if_pos rfl]
      simpa using hs
    · rw [List.takeWhile_cons, if_pos (by simp [hc])] at h
      have hc1 : c ≠ '[' := fun e => h (e ▸ List.mem_cons_self c _)
      simp only [scanBrackets, if_neg hc, if_neg hc1]
      exact ih _ _ hs (fun m => h (List.mem_cons_of_mem _ m))

/-- Scanning a prefix free of `]` only moves the index forward (the start
accumulator may change, but is existentially quantified away because the
interesting continuations overwrite it). -/
theorem scan_append_no_close (pre l : List Char) (i s : Int) (h : ']' ∉ pre) :
    ∃ s', scanBrackets (pre ++ l) i s = scanBrackets l (i + pre.length) s' := by
  induction pre generalizing i s with
  | nil => exact ⟨s, by simp⟩
  | cons c rest ih =>
    have hc : c ≠ ']' := fun e => h (e ▸ List.mem_cons_self c rest)
    obtain ⟨s', hs'⟩ := ih (i + 1) (if c = '[' then i else s)
      (fun m => h (List.mem_cons_of_mem _ m))
    refine ⟨s', ?_⟩
    simp only [List.cons_append, scanBrackets, if_neg hc, List.append_eq]
    rw [hs']
    have harith : i + 1 + (rest.length : Int) = i + ((c :: rest).length : Int) := by
      rw [List.length_cons]; push_cast; ring
    rw [harith]

/-- Scanning a bracket-free middle part followed by `]` stops at that `]`
and keeps the incoming start index. -/
theorem scan_mid (mid suf : List Char) (i s : Int) (h1 : '[' ∉ mid) (h2 : ']' ∉ mid) :
    scanBrackets (mid ++ ']' :: suf) i s = (s, i + mid.length) := by
  induction mid generalizing i s with
  | nil => simp [scanBrackets]
  | cons c rest ih =>
    have hc1 : c ≠ '[' := fun e => h1 (e ▸ List.mem_cons_self c rest)
    have hc2 : c ≠ ']' := fun e => h2 (e ▸ List.mem_cons_self c rest)
    simp only [List.cons_append, scanBrackets, if_neg hc1, if_neg hc2, List.append_eq]
    rw [ih _ _ (fun m => h1 (List.mem_cons_of_mem _ m))
      (fun m => h2 (List.mem_cons_of_mem _ m))]
    have harith : i + 1 + (rest.length : Int) = i + ((c :: rest).length : Int) := by
      rw [List.length_cons]; push_cast; ring
    rw [harith]

/-- The scan of `head ++ "[" ++ reading ++ "]" ++ suffix` finds exactly the
delimiting brackets when the head has no `]` and the reading no brackets. -/
theorem scan_of_well_formed (head reading suffix : List Char)
    (hh : ']' ∉ head) (hr1 : '[' ∉ reading) (hr2 : ']' ∉ reading) :
    scanBrackets (head ++ '[' :: (reading ++ ']' :: suffix)) 0 (-1) =
      ((head.length : Int), (head.length : Int) + 1 + reading.length) := by
  obtain ⟨s', hs'⟩ := scan_append_no_close head ('[' :: (reading ++ ']' :: suffix)) 0 (-1) hh
  rw [hs']
  have step : scanBrackets ('[' :: (reading ++ ']' :: suffix)) (0 + (head.length : Int)) s' =
      scanBrackets (reading ++ ']' :: suffix) (0 + (head.length : Int) + 1) (0 + (head.length : Int)) := by
    simp [scanBrackets]
  rw [step, scan_mid _ _ _ _ hr1 hr2]
  simp

/-- C1 (amended): for every head, reading and suffix such that the head is
non-empty and contains no `]` and the reading contains no bracket
characters, `find_head_reading_suffix` applied to
`head ++ "[" ++ reading ++ "]" ++ suffix` returns exactly
`SplitFurigana(head, reading, suffix)`.  (The source requires
`0 < furigana_start`, so an empty head is NOT reproduced — see the
counterexample — and stray brackets inside head or reading derail the
scan.) -/
theorem find_split_roundtrip (head reading suffix : List Char)
    (hne : head ≠ []) (hh : ']' ∉ head) (hr1 : '[' ∉ reading) (hr2 : ']' ∉ reading) :
    find_head_reading_suffix (head ++ '[' :: (reading ++ ']' :: suffix)) =
      .split ⟨head, reading, suffix⟩ := by
  have hpos : 0 < head.length := List.length_pos.mpr hne
  unfold find_head_reading_suffix
  rw [scan_of_well_formed head reading suffix hh hr1 hr2]
  have hcond : (0 : Int) < (head.length : Int) ∧
      (head.length : Int) < (head.length : Int) + 1 + (reading.length : Int) := by
    constructor <;> omega
  rw [if_pos hcond]
  have e1 : ((head.length : Int)).toNat = head.length := Int.toNat_natCast _
  have e2 : ((head.length : Int) + 1 + (reading.length : Int)).toNat
      = head.length + 1 + reading.length := by omega
  simp only [e1, e2]
  have assoc1 : head ++ '[' :: (reading ++ ']' :: suffix)
      = (head ++ '[' :: reading) ++ ']' :: suffix := by
    simp [List.append_assoc]
  congr 1
  rw [SplitFurigana.mk.injEq]
  refine ⟨?_, ?_, ?_⟩
  · exact List.take_left' rfl
  · rw [assoc1, List.take_left' (by simp [List.length_append]; omega)]
    have assoc2 : head ++ '[' :: reading = (head ++ ['[']) ++ reading := by
      simp [List.append_assoc]
    rw [assoc2, List.drop_left' (by simp [List.length_append])]
  · have assoc3 : head ++ '[' :: (reading ++ ']' :: suffix)
        = ((head ++ '[' :: reading) ++ [']']) ++ suffix := by
      simp [List.append_assoc]
    rw [assoc3, List.drop_left' (by simp [List.length_append]; omega)]

/-- Witness for C1 at head = "a", reading = "bc", suffix = "d". -/
theorem find_split_roundtrip_witness :
    (("a".toList : List Char) ≠ [] ∧ ']' ∉ "a".toList ∧ '[' ∉ "bc".toList ∧ ']' ∉ "bc".toList) ∧
      find_head_reading_suffix ("a".toList ++ '[' :: ("bc".toList ++ ']' :: "d".toList)) =
        .split ⟨"a".toList, "bc".toList, "d".toList⟩ :=
  ⟨by decide, find_split_roundtrip "a".toList "bc".toList "d".toList
    (by decide) (by decide) (by decide) (by decide)⟩

/-- Counterexample to C1 as stated: with head = "", reading = "b" (non-empty)
and suffix = "", the parser does NOT return `SplitFurigana("", "b", "")`
— the source requires `0 < furigana_start`, so `"[b]"` degrades to
`NoFurigana`. -/
theorem find_split_roundtrip_cex :
    find_head_reading_suffix (([] : List Char) ++ '[' :: ("b".toList ++ ']' :: []))
        ≠ .split ⟨[], "b".toList, []⟩ ∧
      find_head_reading_suffix (([] : List Char) ++ '[' :: ("b".toList ++ ']' :: []))
        = .noFurigana "[b]".toList := by
  decide

/-- C2 (amended): for every input whose bracket structure is malformed
(no `[` at all, no `]` at all, or every `[` occurring only after the first
`]`), `find_head_reading_suffix` returns the `NoFurigana` variant wrapping
the whole original text; its `head` AND its `reading` properties both
equal the whole text (in the source `NoFurigana.reading` is an alias of
`NoFurigana.head`, not the empty string, and no `suffix` attribute
exists).  The function is total, so no exception is possible. -/
theorem find_malformed_noFurigana (text : List Char)
    (h : '[' ∉ text ∨ ']' ∉ text ∨ '[' ∉ text.takeWhile (fun c => c != ']')) :
    find_head_reading_suffix text = .noFurigana text ∧
      (find_head_reading_suffix text).head = text ∧
      (find_head_reading_suffix text).reading = text := by
  have main : find_head_reading_suffix text = .noFurigana text := by
    unfold find_head_reading_suffix
    rcases h with h | h | h
    · have h' : '[' ∉ text.takeWhile (fun c => c != ']') :=
        fun m => h ((List.takeWhile_sublist _).mem m)
      have := scan_fst_nonpos text 0 (-1) (by norm_num) h'
      rw [if_neg (by intro hcon; omega)]
    · have := scan_snd_no_close text 0 (-1) h
      rw [if_neg (by intro hcon; omega)]
    · have := scan_fst_nonpos text 0 (-1) (by norm_num) h
      rw [if_neg (by intro hcon; omega)]
  exact ⟨main, by rw [main]; rfl, by rw [main]; rfl⟩

/-- Witness for C2 at the malformed input "ab]" (no open bracket). -/
theorem find_malformed_noFurigana_witness :
    ('[' ∉ "ab]".toList ∨ ']' ∉ "ab]".toList ∨
        '[' ∉ "ab]".toList.takeWhile (fun c => c != ']')) ∧
      (find_head_reading_suffix "ab]".toList = .noFurigana "ab]".toList ∧
        (find_head_reading_suffix "ab]".toList).head = "ab]".toList ∧
        (find_head_reading_suffix "ab]".toList).reading = "ab]".toList) :=
  ⟨by decide, find_malformed_noFurigana "ab]".toList (by decide)⟩

/-- Counterexample to C2 as stated: on the malformed input "あ" (no
brackets at all) the result is the `NoFurigana` variant, but its `reading`
property is the whole text "あ", not the empty string claimed. -/
theorem find_malformed_reading_cex :
    find_head_reading_suffix "あ".toList = .noFurigana "あ".toList ∧
      (find_head_reading_suffix "あ".toList).reading ≠ [] := by
  decide

/-! ## Lemmas about the reading-alignment walk -/

/-- `pyGet` at a non-negative in-bounds index. -/
theorem pyGet_of_nonneg_lt (l : List Char) (i : Int) (h0 : 0 ≤ i)
    (hlt : i < l.length) : pyGet l i = some (l.getD i.toNat ' ') := by
  unfold pyGet
  rw [if_pos h0, List.getElem?_eq_getElem (by omega : i.toNat < l.length),
    List.getD_eq_getElem l ' ' (by omega : i.toNat < l.length)]

/-- The match-run length is bounded by both lengths. -/
theorem matchLenRev_le (p : Char → Char → Bool) (xs ys : List Char) :
    matchLenRev p xs ys ≤ xs.length ∧ matchLenRev p xs ys ≤ ys.length := by
  induction xs generalizing ys with
  | nil => cases ys <;> simp [matchLenRev]
  | cons a xs ih =>
    cases ys with
    | nil => simp [matchLenRev]
    | cons b ys =>
      by_cases hp : p a b <;> simp only [matchLenRev, if_pos, if_neg, hp, if_true, if_false]
      · have := ih ys
        constructor <;> simp [List.length_cons] <;> omega
      · simp

/-- Positions below the match-run length match under `p`. -/
theorem matchLenRev_lt_match (p : Char → Char → Bool) (xs ys : List Char)
    (t : Nat) (ht : t < matchLenRev p xs ys) (d d' : Char) :
    p (xs.getD t d) (ys.getD t d') = true := by
  induction xs generalizing ys t with
  | nil => cases ys <;> simp [matchLenRev] at ht
  | cons a xs ih =>
    cases ys with
    | nil => simp [matchLenRev] at ht
    | cons b ys =>
      by_cases hp : p a b
      · cases t with
        | zero => simpa using hp
        | succ t =>
          simp only [matchLenRev, if_pos hp] at ht
          simpa [List.getD_cons_succ] using ih ys t (by omega) 
      · simp [matchLenRev, if_neg hp] at ht

/-- At the match-run length (when in bounds on both sides) `p` fails. -/
theorem matchLenRev_mismatch (p : Char → Char → Bool) (xs ys : List Char)
    (h1 : matchLenRev p xs ys < xs.length) (h2 : matchLenRev p xs ys < ys.length)
    (d d' : Char) :
    p (xs.getD (matchLenRev p xs ys) d) (ys.getD (matchLenRev p xs ys) d') = false := by
  induction xs generalizing ys with
  | nil => simp at h1
  | cons a xs ih =>
    cases ys with
    | nil => simp at h2
    | cons b ys =>
      by_cases hp : p a b
      · simp only [matchLenRev, if_pos hp] at h1 h2 ⊢
        simpa [List.getD_cons_succ] using
          ih ys (by simpa using Nat.lt_of_succ_lt_succ (by simpa using h1))
            (by simpa using Nat.lt_of_succ_lt_succ (by simpa using h2))
      · simp only [matchLenRev, if_neg hp, List.getD_cons_zero]
        simpa using hp

/-- `getD` through `reverse`. -/
theorem getD_reverse (l : List Char) (t : Nat) (h : t < l.length) (d : Char) :
    l.reverse.getD t d = l.getD (l.length - 1 - t) d := by
  rw [List.getD_eq_getElem l.reverse d (by simpa using h),
    List.getD_eq_getElem l d (by omega),
    List.getElem_reverse]

/-- Characters strictly inside the shared normalized trailing run match. -/
theorem matchLen_match (nc : List Char → List Char) (hw rd : List Char) (t : Nat)
    (ht : t < matchLen nc hw rd) :
    nc [hw.getD (hw.length - 1 - t) ' '] = nc [rd.getD (rd.length - 1 - t) ' '] := by
  have hb := matchLenRev_le (fun a b => nc [a] == nc [b]) hw.reverse rd.reverse
  have h1 : t < hw.length := by
    have := hb.1; unfold matchLen at ht; simp [List.length_reverse] at this; omega
  have h2 : t < rd.length := by
    have := hb.2; unfold matchLen at ht; simp [List.length_reverse] at this; omega
  have := matchLenRev_lt_match (fun a b => nc [a] == nc [b]) hw.reverse rd.reverse t ht ' ' ' '
  rw [getD_reverse hw t h1 ' ', getD_reverse rd t h2 ' '] at this
  simpa using this

/-- The first characters past the shared normalized trailing run mismatch
(when the run is strictly shorter than both strings). -/
theorem matchLen_mismatch (nc : List Char → List Char) (hw rd : List Char)
    (h1 : matchLen nc hw rd < hw.length) (h2 : matchLen nc hw rd < rd.length) :
    nc [hw.getD (hw.length - 1 - matchLen nc hw rd) ' ']
      ≠ nc [rd.getD (rd.length - 1 - matchLen nc hw rd) ' '] := by
  have hmis := matchLenRev_mismatch (fun a b => nc [a] == nc [b]) hw.reverse rd.reverse
    (by simpa using h1) (by simpa using h2) ' ' ' '
  rw [show matchLenRev (fun a b => nc [a] == nc [b]) hw.reverse rd.reverse
      = matchLen nc hw rd from rfl] at hmis
  rw [getD_reverse hw _ h1 ' ', getD_reverse rd _ h2 ' '] at hmis
  simpa using hmis

/-- The suffix walk started `t` steps into the shared run stops exactly at
the end of the run, with both cursors still positive. -/
theorem walk_reaches (nc : List Char → List Char) (hw rd : List Char)
    (hk1 : matchLen nc hw rd < hw.length) (hk2 : matchLen nc hw rd < rd.length) :
    ∀ fuel t, t ≤ matchLen nc hw rd → matchLen nc hw rd - t < fuel →
      walk nc hw rd fuel ((hw.length : Int) - t) ((rd.length : Int) - t) =
        some ((hw.length : Int) - matchLen nc hw rd,
              (rd.length : Int) - matchLen nc hw rd) := by
  intro fuel
  induction fuel with
  | zero => intro t _ h; omega
  | succ f ih =>
    intro t ht _
    have hga : pyGet hw ((hw.length : Int) - t - 1)
        = some (hw.getD (hw.length - 1 - t) ' ') := by
      rw [pyGet_of_nonneg_lt hw _ (by omega) (by omega)]
      congr 1
      congr 1
      omega
    have hgb : pyGet rd ((rd.length : Int) - t - 1)
        = some (rd.getD (rd.length - 1 - t) ' ') := by
      rw [pyGet_of_nonneg_lt rd _ (by omega) (by omega)]
      congr 1
      congr 1
      omega
    rcases Nat.lt_or_ge t (matchLen nc hw rd) with hlt | hge
    · have hmatch := matchLen_match nc hw rd t hlt
      have step : walk nc hw rd (f + 1) ((hw.length : Int) - t) ((rd.length : Int) - t)
          = walk nc hw rd f ((hw.length : Int) - t - 1) ((rd.length : Int) - t - 1) := by
        simp only [walk, hga, hgb, if_pos hmatch]
      rw [step]
      have e1 : (hw.length : Int) - t - 1 = (hw.length : Int) - (t + 1 : Nat) := by
        omega
      have e2 : (rd.length : Int) - t - 1 = (rd.length : Int) - (t + 1 : Nat) := by
        omega
      rw [e1, e2]
      exact ih (t + 1) (by omega) (by omega)
    · have heq : t = matchLen nc hw rd := by omega
      subst heq
      have hmis := matchLen_mismatch nc hw rd hk1 hk2
      simp only [walk, hga, hgb, if_neg hmis]

/-- `sliceTo` at a non-negative index is a plain `take`. -/
theorem sliceTo_nonneg (l : List Char) (i : Int) (h0 : 0 ≤ i) :
    sliceTo l i = l.take i.toNat := by
  unfold sliceTo
  rw [if_pos h0]

/-- `sliceFrom` at a non-negative index is a plain `drop`. -/
theorem sliceFrom_nonneg (l : List Char) (i : Int) (h0 : 0 ≤ i) :
    sliceFrom l i = l.drop i.toNat := by
  unfold sliceFrom
  rw [if_pos h0]

/-- C3 (amended): `adjust_reading` returns the raw text unchanged when the
normalized headword equals the normalized headword reading; otherwise it
returns the given reading verbatim when the normalized headword equals the
normalized raw text; otherwise — PROVIDED the first normalized mismatch
scanning from the ends occurs strictly inside both the headword and the
reading (without this proviso the walk wraps around or raises IndexError)
— it walks both strings from their ends while trailing normalized
characters match and returns `reading[:readingCursor] + raw[headwordCursor:]`,
i.e. the dictionary reading's stem followed by the raw form's own trailing
inflection.  Of the claim's two examples, only the second holds:
`adjust("死ん","死ぬ","しぬ") = "しん"`, while
`adjust("言い方","言い方","いいかた")` takes the unconjugated-headword
branch and returns `"いいかた"`, not `"言い方"` (see the counterexample). -/
theorem adjust_reading_branches (nc : List Char → List Char)
    (raw_word headword headword_reading : List Char) :
    (nc headword = nc headword_reading →
      adjust_reading nc raw_word headword headword_reading = some raw_word) ∧
    (nc headword ≠ nc headword_reading → nc headword = nc raw_word →
      adjust_reading nc raw_word headword headword_reading = some headword_reading) ∧
    (nc headword ≠ nc headword_reading → nc headword ≠ nc raw_word →
      matchLen nc headword headword_reading < headword.length →
      matchLen nc headword headword_reading < headword_reading.length →
      adjust_reading nc raw_word headword headword_reading =
        some (headword_reading.take
            (headword_reading.length - matchLen nc headword headword_reading)
          ++ raw_word.drop (headword.length - matchLen nc headword headword_reading))) := by
  refine ⟨?_, ?_, ?_⟩
  · intro h1
    unfold adjust_reading
    rw [if_pos h1]
  · intro h1 h2
    unfold adjust_reading
    rw [if_neg h1, if_pos h2]
  · intro h1 h2 hk1 hk2
    unfold adjust_reading
    rw [if_neg h1, if_neg h2]
    have hw0 : ((headword.length : Int)) = (headword.length : Int) - (0 : Nat) := by omega
    have hr0 : ((headword_reading.length : Int)) = (headword_reading.length : Int) - (0 : Nat) := by
      omega
    rw [hw0, hr0, walk_reaches nc headword headword_reading hk1 hk2
      (2 * headword.length + 2) 0 (by omega) (by omega), Option.map_some']
    show some (sliceTo headword_reading
          ((headword_reading.length : Int) - (matchLen nc headword headword_reading : Nat))
        ++ sliceFrom raw_word
          ((headword.length : Int) - (matchLen nc headword headword_reading : Nat))) = _
    rw [sliceTo_nonneg _ _ (by omega), sliceFrom_nonneg _ _ (by omega),
      show (((headword_reading.length : Int)
          - (matchLen nc headword headword_reading : Nat)).toNat
        = headword_reading.length - matchLen nc headword headword_reading) from by omega,
      show (((headword.length : Int)
          - (matchLen nc headword headword_reading : Nat)).toNat
        = headword.length - matchLen nc headword headword_reading) from by omega]

/-- Witness for C3: the stem-aligned conjugation example
`adjust("死ん","死ぬ","しぬ") = "しん"` obtained through the third branch
of `adjust_reading_branches` with the (spec-modelled) `to_katakana`
normalization. -/
theorem adjust_reading_branches_witness :
    (to_katakana "死ぬ".toList ≠ to_katakana "しぬ".toList ∧
      to_katakana "死ぬ".toList ≠ to_katakana "死ん".toList ∧
      matchLen to_katakana "死ぬ".toList "しぬ".toList < "死ぬ".toList.length ∧
      matchLen to_katakana "死ぬ".toList "しぬ".toList < "しぬ".toList.length) ∧
    adjust_reading to_katakana "死ん".toList "死ぬ".toList "しぬ".toList =
      some ("しぬ".toList.take ("しぬ".toList.length - matchLen to_katakana "死ぬ".toList "しぬ".toList)
        ++ "死ん".toList.drop ("死ぬ".toList.length - matchLen to_katakana "死ぬ".toList "しぬ".toList)) :=
  ⟨by decide,
    (adjust_reading_branches to_katakana "死ん".toList "死ぬ".toList "しぬ".toList).2.2
      (by decide) (by decide) (by decide) (by decide)⟩

/-- Counterexample to C3 as stated: the claim's first example expects
`adjust("言い方","言い方","いいかた") = "言い方"`, but since the raw word
equals the headword the second branch fires and the code returns the
reading `"いいかた"`. -/
theorem adjust_reading_cex :
    adjust_reading to_katakana "言い方".toList "言い方".toList "いいかた".toList
        = some ("いいかた".toList) ∧
      adjust_reading to_katakana "言い方".toList "言い方".toList "いいかた".toList
        ≠ some ("言い方".toList) := by
  decide

/-- C4 (amended): when the first normalized mismatch scanning from the
ends occurs strictly inside both the headword and the headword reading
(i.e. the shared normalized trailing run is shorter than either string),
the suffix-matching walk terminates with both cursors strictly positive,
so every character access is at a non-negative in-bounds index.  The
claim's own precondition — merely a non-empty shared trailing run — is NOT
enough: see the counterexample, where the walk dereferences the wrapped
index `-1` and ends with the reading cursor at `0`. -/
theorem walk_cursors_positive (nc : List Char → List Char) (hw rd : List Char)
    (hk1 : matchLen nc hw rd < hw.length) (hk2 : matchLen nc hw rd < rd.length) :
    ∃ ih ir : Int,
      walk nc hw rd (2 * hw.length + 2) hw.length rd.length = some (ih, ir) ∧
        0 < ih ∧ 0 < ir := by
  refine ⟨(hw.length : Int) - matchLen nc hw rd, (rd.length : Int) - matchLen nc hw rd,
    ?_, by omega, by omega⟩
  have hw0 : ((hw.length : Int)) = (hw.length : Int) - (0 : Nat) := by omega
  have hr0 : ((rd.length : Int)) = (rd.length : Int) - (0 : Nat) := by omega
  rw [hw0, hr0]
  exact walk_reaches nc hw rd hk1 hk2 (2 * hw.length + 2) 0 (by omega) (by omega)

/-- Witness for C4 at headword "死ぬ", reading "しぬ" (shared normalized
trailing run "ぬ", mismatch at "死" vs "し", both inside). -/
theorem walk_cursors_positive_witness :
    (matchLen to_katakana "死ぬ".toList "しぬ".toList < "死ぬ".toList.length ∧
      matchLen to_katakana "死ぬ".toList "しぬ".toList < "しぬ".toList.length) ∧
    (∃ ih ir : Int,
      walk to_katakana "死ぬ".toList "しぬ".toList (2 * "死ぬ".toList.length + 2)
          "死ぬ".toList.length "しぬ".toList.length = some (ih, ir) ∧
        0 < ih ∧ 0 < ir) :=
  ⟨by decide, walk_cursors_positive to_katakana "死ぬ".toList "しぬ".toList
    (by decide) (by decide)⟩

/-- Counterexample to C4 as stated: headword "xa" and reading "a" share
the non-empty normalized trailing run "a" and neither equality branch of
`adjust_reading` applies (with raw word "q"), yet the walk compares
`headword[0]` with the WRAPPED index `reading[-1]` and stops with the
reading cursor at 0 — not strictly positive, and a negative index was
dereferenced. -/
theorem walk_cursors_positive_cex :
    to_katakana "xa".toList ≠ to_katakana "a".toList ∧
      to_katakana "xa".toList ≠ to_katakana "q".toList ∧
      to_katakana ['a'] = to_katakana ['a'] ∧
      walk to_katakana "xa".toList "a".toList (2 * "xa".toList.length + 2)
          "xa".toList.length "a".toList.length = some (1, 0) := by
  decide

/-- C10: whenever `word_reading` takes the no-furigana sentinel branch
(the computed reading is empty or equals the computed word), it returns
`WordReading(text, "")` with the ORIGINAL input string verbatim —
whitespace and all — as the word component, not the concatenation of the
tokens' heads and suffixes. -/
theorem word_reading_sentinel (text : List Char)
    (h : wr_reading text = [] ∨ wr_word text = wr_reading text) :
    word_reading text = ⟨text, []⟩ := by
  unfold word_reading
  rcases h with h | h
  · rw [if_neg (by simp [h])]
  · rw [if_neg (by simp [h])]

/-- Witness for C10 at `word_reading("お 前") = WordReading("お 前", "")`:
the sentinel branch fires (computed word and reading are both "お前"),
the original text with its interior space is returned, and it differs
from the concatenation "お前" of the tokens' heads and suffixes. -/
theorem word_reading_sentinel_witness :
    (wr_reading "お 前".toList = [] ∨ wr_word "お 前".toList = wr_reading "お 前".toList) ∧
      word_reading "お 前".toList = ⟨"お 前".toList, []⟩ ∧
      wr_word "お 前".toList ≠ "お 前".toList :=
  ⟨by decide, word_reading_sentinel "お 前".toList (by decide), by decide⟩

/-- All rows have the head row's length iff no adjacent pair of rows
disagrees in length (the check `any(len(x) != len(y) for x, y in
pairs(split))` used by `mingle_readings`). -/
theorem chain_lengths (l : List (List (List Char))) :
    ((l.zip l.tail).any (fun p => p.1.length != p.2.length) = false)
      ↔ ∀ x ∈ l, x.length = (l.headD []).length := by
  induction l with
  | nil => simp
  | cons a rest ih =>
    cases rest with
    | nil => simp
    | cons b rest2 =>
      simp only [List.tail_cons, List.zip_cons_cons, List.any_cons,
        Bool.or_eq_false_iff, bne_eq_false_iff_eq, List.headD_cons]
      rw [List.tail_cons] at ih
      constructor
      · rintro ⟨h1, h2⟩
        have hall := ih.mp h2
        intro x hx
        rcases List.mem_cons.mp hx with rfl | hx
        · rfl
        · rw [hall x hx, List.headD_cons, ← h1]
      · intro hall
        have h1 : a.length = b.length :=
          (hall b (List.mem_cons_of_mem _ (List.mem_cons_self _ _))).symm
        refine ⟨h1, ih.mpr ?_⟩
        intro x hx
        rw [hall x (List.mem_cons_of_mem _ hx), List.headD_cons, h1]

/-- C5: for at least two furigana notations of one sentence — (fallback)
if the notations do not all whitespace-split into the same token count,
`mingle_readings` returns the first notation unchanged; (merge) otherwise
each aligned token column is packed by joining the order-preserving
deduplicated readings with the separator, emitting the bare head when the
joined readings equal the head and `" head[joined]suffix"` (first
notation's head and suffix) otherwise, and the per-column outputs are
concatenated in order; and the claim's concrete example
`mingle_readings([" 有[あ]り 得[う]る", " 有[あ]り 得[え]る"])
= " 有[あ]り 得[う, え]る"` holds. -/
theorem mingle_readings_correct (sep : List Char) (ws : List (List Char))
    (_hlen : 1 < ws.length) :
    (¬(∀ x ∈ ws.map whitespace_split,
        x.length = ((ws.map whitespace_split).headD []).length) →
      mingle_readings sep ws = ws.headD []) ∧
    ((∀ x ∈ ws.map whitespace_split,
        x.length = ((ws.map whitespace_split).headD []).length) →
      mingle_readings sep ws =
        ((transposeMin (ws.map whitespace_split)).map (mingle_pack sep)).flatten) ∧
    mingle_readings ", ".toList
        [" 有[あ]り 得[う]る".toList, " 有[あ]り 得[え]る".toList]
      = " 有[あ]り 得[う, え]る".toList := by
  refine ⟨?_, ?_, by decide⟩
  · intro hne
    unfold mingle_readings
    cases hany : ((ws.map whitespace_split).zip (ws.map whitespace_split).tail).any
        (fun p => p.1.length != p.2.length) with
    | false => exact absurd ((chain_lengths _).mp hany) hne
    | true => rw [if_pos hany]
  · intro hall
    unfold mingle_readings
    rw [if_neg (by rw [(chain_lengths _).mpr hall]; exact Bool.false_ne_true)]

/-- Witness for C5: the merge branch applied to the claim's example. -/
theorem mingle_readings_correct_witness :
    (1 < ([" 有[あ]り 得[う]る".toList, " 有[あ]り 得[え]る".toList] : List (List Char)).length ∧
      (∀ x ∈ ([" 有[あ]り 得[う]る".toList, " 有[あ]り 得[え]る".toList] : List (List Char)).map whitespace_split,
        x.length = ((([" 有[あ]り 得[う]る".toList, " 有[あ]り 得[え]る".toList] : List (List Char)).map whitespace_split).headD []).length)) ∧
    mingle_readings ", ".toList [" 有[あ]り 得[う]る".toList, " 有[あ]り 得[え]る".toList] =
      ((transposeMin (([" 有[あ]り 得[う]る".toList, " 有[あ]り 得[え]る".toList] : List (List Char)).map whitespace_split)).map
        (mingle_pack ", ".toList)).flatten :=
  ⟨⟨by decide, by decide⟩,
    (mingle_readings_correct ", ".toList
      [" 有[あ]り 得[う]る".toList, " 有[あ]り 得[え]る".toList] (by decide)).2.1 (by decide)⟩

/-- A 19-field corpus line whose 13th field contains an internal comma
inside a parenthesis group. -/
def sampleLine : List Char :=
  "1,2,3,4,5,6,7,8,9,10,11,12,(a,b),14,15,16,17,18,19".toList

/-- The record parsed from `sampleLine`: 19 fields in order, with the
parenthesis group kept as a single field (its comma now a semicolon). -/
def sampleEntry : AccentEntry :=
  ⟨"1".toList, "2".toList, "3".toList, "4".toList, "5".toList,
   "6".toList, "7".toList, "8".toList, "9".toList, "10".toList,
   "11".toList, "12".toList, "(a;b)".toList, "14".toList, "15".toList,
   "16".toList, "17".toList, "18".toList, "19".toList⟩

/-- C6: the accent-entry parser first rewrites the internal commas of
every brace group and parenthesis group to semicolons (`escape_commas`,
the model of the findall/replace preprocessing), and then fails if and
only if the resulting line does not split on commas into exactly 19
fields; otherwise it returns the 19-field record built from the fields in
order. -/
theorem make_accent_entry_fields (csv_line : List Char) :
    (make_accent_entry csv_line = none ↔
      (splitOnChar ',' (escape_commas (pyStrip csv_line))).length ≠ 19) ∧
    (∀ e, make_accent_entry csv_line = some e →
      e = mkAccentEntry (splitOnChar ',' (escape_commas (pyStrip csv_line)))) := by
  unfold make_accent_entry
  constructor
  · by_cases h : (splitOnChar ',' (escape_commas (pyStrip csv_line))).length = 19
    · rw [if_pos h]
      simp [h]
    · rw [if_neg h]
      simp [h]
  · intro e he
    by_cases h : (splitOnChar ',' (escape_commas (pyStrip csv_line))).length = 19
    · rw [if_pos h] at he
      exact (Option.some.injEq _ _ ▸ he).symm
    · rw [if_neg h] at he
      cases he

/-- Witness for C6: `sampleLine` parses to `sampleEntry`; the field
containing "(a,b)" stays one field (not split at its internal comma) and
becomes "(a;b)". -/
theorem make_accent_entry_fields_witness :
    make_accent_entry sampleLine = some sampleEntry ∧
      sampleEntry = mkAccentEntry (splitOnChar ',' (escape_commas (pyStrip sampleLine))) ∧
      sampleEntry.majiri = "(a;b)".toList ∧
      (splitOnChar ',' (escape_commas (pyStrip sampleLine))).length = 19 :=
  ⟨by decide, (make_accent_entry_fields sampleLine).2 sampleEntry (by decide),
    by decide, by decide⟩

/-- Effect of one rendered piece on the overline-span nesting depth: the
overline opener increments it; the three closers of the overline span
(`</span>` on a transition to 0, `</span>&#42780;` on a downstep, and the
final `</span>`) decrement it; character, no-pronunciation and nasal
pieces are self-contained and leave it unchanged. -/
def overlineStep (d : Int) : Piece → Int
  | .openOverline => d + 1
  | .closeOverline => d - 1
  | .downstep => d - 1
  | .finalClose => d - 1
  | _ => d

/-- Scans a piece list tracking the overline depth; `none` if the depth
ever drops below zero (an unmatched close), otherwise the final depth. -/
def scanOverline : List Piece → Int → Option Int
  | [], d => some d
  | p :: ps, d =>
    if 0 ≤ overlineStep d p then scanOverline ps (overlineStep d p) else none

/-- `scanOverline` distributes over concatenation. -/
theorem scanOverline_append (xs ys : List Piece) (d : Int) :
    scanOverline (xs ++ ys) d =
      (scanOverline xs d).bind (fun e => scanOverline ys e) := by
  induction xs generalizing d with
  | nil => simp [scanOverline]
  | cons p xs ih =>
    simp only [List.cons_append, scanOverline, List.append_eq]
    by_cases h : 0 ≤ overlineStep d p
    · rw [if_pos h, if_pos h, ih]
    · rw [if_neg h, if_neg h]
      rfl

/-- Invariant of the rendering loop: starting from depth 1 when the
overline flag is set (0 otherwise), the produced pieces never close an
unopened overline span and end at depth 1 exactly when the final flag is
set. -/
theorem render_chars_scan (nasal devoiced : List Nat) :
    ∀ (kana acc : List Char) (idx : Nat) (flag : Bool) (ps : List Piece) (f : Bool),
      render_chars nasal devoiced kana acc idx flag = some (ps, f) →
      scanOverline ps (if flag then 1 else 0) = some (if f then 1 else 0) := by
  intro kana
  induction kana with
  | nil =>
    intro acc idx flag ps f h
    simp only [render_chars, Option.some.injEq, Prod.mk.injEq] at h
    rw [← h.1, ← h.2]
    rfl
  | cons c krest ih =>
    intro acc idx flag ps f h
    cases acc with
    | nil => simp [render_chars] at h
    | cons a arest =>
      simp only [render_chars] at h
      cases hd : charDigit a with
      | none => rw [hd] at h; simp at h
      | some d =>
        rw [hd] at h
        simp only [Option.map_eq_some', Prod.mk.injEq] at h
        obtain ⟨r, hr, hps1, hps2⟩ := h
        have hrec := ih arest (idx + 1) _ r.1 r.2 (by rw [hr])
        subst hps1
        subst hps2
        rcases Nat.eq_zero_or_pos d with hd0 | hd0 <;> by_cases hd2 : d = 2 <;>
          by_cases hf : flag <;> by_cases hdev : (idx + 1) ∈ devoiced <;>
          by_cases hnas : (idx + 1) ∈ nasal <;>
          first
          | omega
          | simp_all [scanOverline_append, scanOverline, overlineStep,
              Nat.pos_iff_ne_zero]

/-- C7: for every input (katakana reading, accent digit string, nasal
code, devoiced code) on which the renderer succeeds, the produced piece
sequence has balanced overline spans: scanning it left to right the
overline depth never drops below zero and ends at zero — every opened
overline span is closed exactly once (by the transition-to-0 close, the
downstep close, or the final close) and no close is unmatched.  The
rendered HTML string is exactly the concatenation of these pieces. -/
theorem format_entry_pieces_balanced (kana accent nasalcode devcode : List Char)
    (ps : List Piece)
    (h : format_entry_pieces kana accent nasalcode devcode = some ps) :
    scanOverline ps 0 = some 0 ∧
      format_entry kana accent nasalcode devcode = some ((ps.map pieceStr).flatten) := by
  refine ⟨?_, by unfold format_entry; rw [h, Option.map_some']⟩
  unfold format_entry_pieces at h
  obtain ⟨nasal, hn, h⟩ := Option.bind_eq_some.mp h
  obtain ⟨dev, hv, h⟩ := Option.bind_eq_some.mp h
  obtain ⟨r, hrend, h⟩ := Option.bind_eq_some.mp h
  rw [Option.pure_def, Option.some.injEq] at h
  subst h
  have hmain := render_chars_scan nasal dev kana
    (List.replicate (kana.length - accent.length) '0' ++ accent) 0 false r.1 r.2
    (by rw [← hrend])
  rw [scanOverline_append]
  rw [show (if (false : Bool) then (1 : Int) else 0) = 0 from rfl] at hmain
  rw [hmain]
  cases hr2 : r.2 <;> simp [scanOverline, overlineStep]

/-- Witness for C7: kana "ab" with accent class "2" renders to
`a<span class="overline">b</span>&#42780;` whose pieces scan to a balanced
depth profile. -/
theorem format_entry_pieces_balanced_witness :
    format_entry_pieces "ab".toList "2".toList [] [] =
        some [Piece.plainChar 'a', Piece.openOverline, Piece.plainChar 'b',
          Piece.downstep] ∧
      (scanOverline [Piece.plainChar 'a', Piece.openOverline, Piece.plainChar 'b',
          Piece.downstep] 0 = some 0 ∧
        format_entry "ab".toList "2".toList [] [] =
          some (([Piece.plainChar 'a', Piece.openOverline, Piece.plainChar 'b',
            Piece.downstep].map pieceStr).flatten)) :=
  ⟨by decide, format_entry_pieces_balanced "ab".toList "2".toList [] [] _ (by decide)⟩

/-! ## Lemmas about the insertion-ordered dictionary -/

/-- `mapOption` membership: every input element maps to some output
element. -/
theorem mapOption_mem {α β : Type} (f : α → Option β) (as : List α) (bs : List β)
    (h : mapOption f as = some bs) (x : α) (hx : x ∈ as) :
    ∃ y, f x = some y ∧ y ∈ bs := by
  induction as generalizing bs with
  | nil => cases hx
  | cons a rest ih =>
    simp only [mapOption] at h
    cases hfa : f a with
    | none => rw [hfa] at h; cases h
    | some b =>
      rw [hfa] at h
      simp only [Option.map_eq_some'] at h
      obtain ⟨bs', hbs', rfl⟩ := h
      rcases List.mem_cons.mp hx with rfl | hx
      · exact ⟨b, hfa, List.mem_cons_self _ _⟩
      · obtain ⟨y, hy, hymem⟩ := ih bs' hbs' hx
        exact ⟨y, hy, List.mem_cons_of_mem _ hymem⟩

/-- `assocGet` after `assocSet` at the same key. -/
theorem assocGet_set_self {α : Type} (d : List (List Char × α)) (k : List Char) (v : α) :
    assocGet (assocSet d k v) k = some v := by
  induction d with
  | nil => simp [assocSet, assocGet]
  | cons kv rest ih =>
    by_cases h : kv.1 = k
    · simp [assocSet, h, assocGet]
    · simp [assocSet, h, assocGet, ih]

/-- `assocGet` after `assocSet` at a different key. -/
theorem assocGet_set_other {α : Type} (d : List (List Char × α)) (k k' : List Char)
    (v : α) (h : k' ≠ k) : assocGet (assocSet d k v) k' = assocGet d k' := by
  have hne : ¬(k = k') := fun e => h e.symm
  induction d with
  | nil =>
    simp only [assocSet, assocGet]
    rw [if_neg hne]
  | cons kv rest ih =>
    by_cases hk : kv.1 = k
    · subst hk
      simp only [assocSet, if_pos rfl, assocGet]
      rw [if_neg hne, if_neg hne]
    · simp only [assocSet, if_neg hk, assocGet]
      by_cases hk' : kv.1 = k'
      · rw [if_pos hk', if_pos hk']
      · rw [if_neg hk', if_neg hk', ih]

/-- Every entry of `assocSet d k v` is an entry of `d` or the new pair. -/
theorem mem_assocSet {α : Type} (d : List (List Char × α)) (k : List Char) (v : α)
    (kv : List Char × α) (h : kv ∈ assocSet d k v) : kv ∈ d ∨ kv = (k, v) := by
  induction d with
  | nil => exact Or.inr (by simpa [assocSet] using h)
  | cons kv0 rest ih =>
    by_cases hk : kv0.1 = k
    · rw [assocSet] at h
      rw [if_pos hk] at h
      rcases List.mem_cons.mp h with rfl | h
      · exact Or.inr rfl
      · exact Or.inl (List.mem_cons_of_mem _ h)
    · rw [assocSet] at h
      rw [if_neg hk] at h
      rcases List.mem_cons.mp h with rfl | h
      · exact Or.inl (List.mem_cons_self _ _)
      · rcases ih h with h | h
        · exact Or.inl (List.mem_cons_of_mem _ h)
        · exact Or.inr h

/-- `assocSet` on a present key keeps the key list unchanged. -/
theorem assocSet_fst_of_mem {α : Type} (d : List (List Char × α)) (k : List Char)
    (v : α) (h : k ∈ d.map Prod.fst) :
    (assocSet d k v).map Prod.fst = d.map Prod.fst := by
  induction d with
  | nil => cases h
  | cons kv rest ih =>
    by_cases hk : kv.1 = k
    · simp [assocSet, hk]
    · rw [List.map_cons] at h
      rcases List.mem_cons.mp h with h' | h'
      · exact absurd h'.symm hk
      · simp [assocSet, hk, ih h']

/-- `assocSet` on an absent key appends the key. -/
theorem assocSet_fst_of_not_mem {α : Type} (d : List (List Char × α)) (k : List Char)
    (v : α) (h : k ∉ d.map Prod.fst) :
    (assocSet d k v).map Prod.fst = d.map Prod.fst ++ [k] := by
  induction d with
  | nil => simp [assocSet]
  | cons kv rest ih =>
    by_cases hk : kv.1 = k
    · subst hk
      exact absurd (by rw [List.map_cons]; exact List.mem_cons_self _ _) h
    · rw [List.map_cons] at h
      simp only [assocSet, if_neg hk, List.map_cons, List.cons_append,
        List.cons.injEq, true_and]
      exact ih (fun m => h (List.mem_cons_of_mem _ m))

/-- `assocSet` preserves distinctness of keys. -/
theorem assocSet_nodup_fst {α : Type} (d : List (List Char × α)) (k : List Char)
    (v : α) (h : (d.map Prod.fst).Nodup) : ((assocSet d k v).map Prod.fst).Nodup := by
  by_cases hk : k ∈ d.map Prod.fst
  · rw [assocSet_fst_of_mem d k v hk]
    exact h
  · rw [assocSet_fst_of_not_mem d k v hk]
    exact List.Nodup.append h (List.nodup_singleton k)
      (List.disjoint_singleton.mpr hk)

/-- A successful `assocGet` is a membership. -/
theorem assocGet_mem {α : Type} (d : List (List Char × α)) (k : List Char) (vs : α)
    (h : assocGet d k = some vs) : (k, vs) ∈ d := by
  induction d with
  | nil => cases h
  | cons kv rest ih =>
    rw [assocGet] at h
    by_cases hk : kv.1 = k
    · rw [if_pos hk, Option.some.injEq] at h
      subst hk
      rw [← h]
      exact List.mem_cons_self _ _
    · rw [if_neg hk] at h
      exact List.mem_cons_of_mem _ (ih h)

/-- The bucket registered at the written key. -/
theorem register_get_self {α : Type} [DecidableEq α] (d : List (List Char × List α))
    (k : List Char) (v : α) :
    assocGet (register d k v) k =
      some (if v ∈ (assocGet d k).getD [] then (assocGet d k).getD []
            else (assocGet d k).getD [] ++ [v]) := by
  unfold register
  exact assocGet_set_self ..

/-- Other buckets are untouched by `register`. -/
theorem register_get_other {α : Type} [DecidableEq α] (d : List (List Char × List α))
    (k k' : List Char) (v : α) (h : k' ≠ k) :
    assocGet (register d k v) k' = assocGet d k' := by
  unfold register
  exact assocGet_set_other _ _ _ _ h

/-- After `register d k v` the value `v` is in the bucket of `k`. -/
theorem register_mem_self {α : Type} [DecidableEq α] (d : List (List Char × List α))
    (k : List Char) (v : α) :
    ∃ vs, assocGet (register d k v) k = some vs ∧ v ∈ vs := by
  refine ⟨_, register_get_self d k v, ?_⟩
  by_cases hv : v ∈ (assocGet d k).getD []
  · rw [if_pos hv]
    exact hv
  · rw [if_neg hv]
    exact List.mem_append_right _ (List.mem_singleton.mpr rfl)

/-- `register` never removes a value from any bucket. -/
theorem register_preserves_mem {α : Type} [DecidableEq α]
    (d : List (List Char × List α)) (k' : List Char) (vs : List α) (w : α)
    (k : List Char) (v : α) (hget : assocGet d k' = some vs) (hw : w ∈ vs) :
    ∃ vs', assocGet (register d k v) k' = some vs' ∧ w ∈ vs' := by
  by_cases hk : k' = k
  · subst hk
    refine ⟨_, register_get_self d k' v, ?_⟩
    rw [hget, Option.getD_some]
    by_cases hv : v ∈ vs
    · rw [if_pos hv]
      exact hw
    · rw [if_neg hv]
      exact List.mem_append_left _ hw
  · exact ⟨vs, by rw [register_get_other d k k' v hk]; exact hget, hw⟩

/-- `register` preserves distinct keys and duplicate-free buckets. -/
theorem register_invariant {α : Type} [DecidableEq α] (d : List (List Char × List α))
    (k : List Char) (v : α) (h1 : (d.map Prod.fst).Nodup)
    (h2 : ∀ kv ∈ d, List.Nodup kv.2) :
    ((register d k v).map Prod.fst).Nodup ∧ ∀ kv ∈ register d k v, List.Nodup kv.2 := by
  constructor
  · unfold register
    exact assocSet_nodup_fst _ _ _ h1
  · intro kv hkv
    unfold register at hkv
    rcases mem_assocSet _ _ _ _ hkv with h | h
    · exact h2 kv h
    · have hcur : List.Nodup ((assocGet d k).getD []) := by
        cases hg : assocGet d k with
        | none => simp
        | some cur => simpa using h2 (k, cur) (assocGet_mem d k cur hg)
      rw [h]
      by_cases hv : v ∈ (assocGet d k).getD []
      · rw [if_pos hv]
        exact hcur
      · rw [if_neg hv]
        exact List.Nodup.append hcur (List.nodup_singleton v)
          (List.disjoint_singleton.mpr hv)

/-- Folding `register` over a registration list preserves the dictionary
invariant. -/
theorem foldl_register_invariant {α : Type} [DecidableEq α]
    (regs : List (List Char × α)) :
    ∀ d : List (List Char × List α), (d.map Prod.fst).Nodup →
      (∀ kv ∈ d, List.Nodup kv.2) →
      (((regs.foldl (fun d kv => register d kv.1 kv.2) d).map Prod.fst).Nodup ∧
        ∀ kv ∈ regs.foldl (fun d kv => register d kv.1 kv.2) d, List.Nodup kv.2) := by
  induction regs with
  | nil => exact fun d h1 h2 => ⟨h1, h2⟩
  | cons r rest ih =>
    intro d h1 h2
    rw [List.foldl_cons]
    have hr := register_invariant d r.1 r.2 h1 h2
    exact ih _ hr.1 hr.2

/-- Folding `register` preserves existing bucket membership. -/
theorem foldl_register_preserves_mem {α : Type} [DecidableEq α]
    (regs : List (List Char × α)) :
    ∀ (d : List (List Char × List α)) (k : List Char) (vs : List α) (w : α),
      assocGet d k = some vs → w ∈ vs →
      ∃ vs', assocGet (regs.foldl (fun d kv => register d kv.1 kv.2) d) k = some vs' ∧
        w ∈ vs' := by
  induction regs with
  | nil => exact fun d k vs w hget hw => ⟨vs, hget, hw⟩
  | cons r rest ih =>
    intro d k vs w hget hw
    rw [List.foldl_cons]
    obtain ⟨vs', hget', hw'⟩ := register_preserves_mem d k vs w r.1 r.2 hget hw
    exact ih _ k vs' w hget' hw'

/-- Every registration in the list ends up in the folded dictionary. -/
theorem foldl_register_mem {α : Type} [DecidableEq α] (regs : List (List Char × α)) :
    ∀ (d : List (List Char × List α)) (kv : List Char × α), kv ∈ regs →
      ∃ vs, assocGet (regs.foldl (fun d kv => register d kv.1 kv.2) d) kv.1 = some vs ∧
        kv.2 ∈ vs := by
  induction regs with
  | nil => intro d kv h; cases h
  | cons r rest ih =>
    intro d kv hkv
    rw [List.foldl_cons]
    rcases List.mem_cons.mp hkv with rfl | hkv
    · obtain ⟨vs, hget, hv⟩ := register_mem_self d kv.1 kv.2
      exact foldl_register_preserves_mem rest _ kv.1 vs kv.2 hget hv
    · exact ih _ kv hkv

/-- Every persisted row's key is a key of the dictionary. -/
theorem dbRows_fst_mem (d : List (List Char × List (List Char × List Char)))
    (x : List Char × List Char × List Char) (h : x ∈ dbRows d) :
    x.1 ∈ d.map Prod.fst := by
  induction d with
  | nil => cases h
  | cons kv rest ih =>
    rw [dbRows, List.flatMap_cons] at h
    rw [List.map_cons]
    rcases List.mem_append.mp h with h | h
    · obtain ⟨p, _, hp⟩ := List.mem_map.mp h
      rw [← hp]
      exact List.mem_cons_self _ _
    · exact List.mem_cons_of_mem _ (ih h)

/-- With distinct keys and duplicate-free buckets, the persisted rows are
pairwise distinct. -/
theorem dbRows_nodup (d : List (List Char × List (List Char × List Char)))
    (h1 : (d.map Prod.fst).Nodup) (h2 : ∀ kv ∈ d, List.Nodup kv.2) :
    (dbRows d).Nodup := by
  induction d with
  | nil => simp [dbRows]
  | cons kv rest ih =>
    rw [List.map_cons, List.nodup_cons] at h1
    rw [dbRows, List.flatMap_cons]
    refine List.Nodup.append ?_ (ih h1.2 (fun kv' m => h2 _ (List.mem_cons_of_mem _ m))) ?_
    · refine List.Nodup.map ?_ (h2 kv (List.mem_cons_self _ _))
      intro p q hpq
      have h' := (Prod.mk.injEq _ _ _ _).mp hpq
      exact h'.2
    · intro x hx hx'
      obtain ⟨p, _, hp⟩ := List.mem_map.mp hx
      have hx1 : x.1 = kv.1 := by rw [← hp]
      have := dbRows_fst_mem rest x hx'
      rw [hx1] at this
      exact h1.1 this

/-- C8: a successful database build yields a dictionary in which every
parsed line's `(katakana_reading, html)` pair is registered under BOTH the
entry's `nhk` key and its `kanjiexpr` key, and the persisted tab-separated
rows contain no repeated `(key, katakana, html)` triple (keys are distinct
and each key's bucket is duplicate-free, insertion-ordered by
construction). -/
theorem build_database_correct (lines : List (List Char))
    (d : List (List Char × List (List Char × List Char)))
    (h : build_database lines = some d) :
    (dbRows d).Nodup ∧
      ∀ line ∈ lines, ∀ e, make_accent_entry line = some e →
        ∀ html, format_entry_e e = some html →
          (∃ vs, assocGet d e.nhk = some vs ∧ (e.katakana_reading, html) ∈ vs) ∧
          (∃ vs, assocGet d e.kanjiexpr = some vs ∧ (e.katakana_reading, html) ∈ vs) := by
  unfold build_database at h
  obtain ⟨entries, hE, h⟩ := Option.bind_eq_some.mp h
  obtain ⟨pairs, hP, h⟩ := Option.bind_eq_some.mp h
  rw [Option.pure_def, Option.some.injEq] at h
  subst h
  constructor
  · have hinv := foldl_register_invariant (pairs.flatMap (fun p => entryRegs p.1 p.2)) []
      (by simp) (by simp)
    exact dbRows_nodup _ hinv.1 hinv.2
  · intro line hline e he html hhtml
    obtain ⟨e', he', heE⟩ := mapOption_mem make_accent_entry lines entries hE line hline
    rw [he] at he'
    have he'' : e = e' := (Option.some.injEq _ _).mp he'
    subst he''
    obtain ⟨p, hp, hpP⟩ := mapOption_mem _ entries pairs hP e heE
    rw [hhtml, Option.map_some'] at hp
    have hp' : (e, html) = p := (Option.some.injEq _ _).mp hp
    rw [← hp'] at hpP
    constructor
    · exact foldl_register_mem _ [] (e.nhk, (e.katakana_reading, html))
        (List.mem_flatMap.mpr ⟨(e, html), hpP, by simp [entryRegs]⟩)
    · exact foldl_register_mem _ [] (e.kanjiexpr, (e.katakana_reading, html))
        (List.mem_flatMap.mpr ⟨(e, html), hpP, by simp [entryRegs]⟩)

/-- One corpus line used to exercise the builder. -/
def sampleCorpusLine : List Char :=
  "1,2,3,4,5,KN,nhkkey,kanjikey,9,10,,,13,14,15,ab,17,18,02".toList

/-- Its rendered pitch HTML (accent pattern "02" over kana "ab"). -/
def sampleHtml : List Char :=
  "a<span class=\"overline\">b</span>&#42780;".toList

/-- The dictionary built from the one-line corpus: the pair is registered
under both the nhk key and the kanjiexpr key. -/
def sampleDb : List (List Char × List (List Char × List Char)) :=
  [("nhkkey".toList, [("KN".toList, sampleHtml)]),
   ("kanjikey".toList, [("KN".toList, sampleHtml)])]

/-- Witness for C8 on the one-line corpus. -/
theorem build_database_correct_witness :
    build_database [sampleCorpusLine] = some sampleDb ∧
      ((dbRows sampleDb).Nodup ∧
        ∀ line ∈ [sampleCorpusLine], ∀ e, make_accent_entry line = some e →
          ∀ html, format_entry_e e = some html →
            (∃ vs, assocGet sampleDb e.nhk = some vs ∧ (e.katakana_reading, html) ∈ vs) ∧
            (∃ vs, assocGet sampleDb e.kanjiexpr = some vs ∧
              (e.katakana_reading, html) ∈ vs)) :=
  ⟨by decide, build_database_correct [sampleCorpusLine] sampleDb (by decide)⟩

/-- C9 (amended): loading the persisted file yields a dictionary whose
keys are distinct and whose buckets are duplicate-free, insertion-ordered
lists of RENDERED-HTML STRINGS (not (katakana, html) pairs — the loader
keeps only `pitch_html`; the katakana field serves as an additional lookup
key); each row's html is registered under both its word key and its kana
key. -/
theorem read_derivative_correct (lines : List (List Char))
    (d : List (List Char × List (List Char)))
    (h : read_derivative lines = some d) :
    ((d.map Prod.fst).Nodup ∧ ∀ kv ∈ d, List.Nodup kv.2) ∧
      ∀ line ∈ lines, ∀ row, parseRow line = some row →
        (∃ vs, assocGet d row.1 = some vs ∧ row.2.2 ∈ vs) ∧
        (∃ vs, assocGet d row.2.1 = some vs ∧ row.2.2 ∈ vs) := by
  unfold read_derivative at h
  obtain ⟨rows, hrows, hd⟩ := Option.map_eq_some'.mp h
  subst hd
  constructor
  · exact foldl_register_invariant _ [] (by simp) (by simp)
  · intro line hline row hrow
    obtain ⟨row', hrow', hrowsmem⟩ := mapOption_mem parseRow lines rows hrows line hline
    rw [hrow] at hrow'
    have hr'' : row = row' := (Option.some.injEq _ _).mp hrow'
    subst hr''
    constructor
    · exact foldl_register_mem _ [] (row.1, row.2.2)
        (List.mem_flatMap.mpr ⟨row, hrowsmem, by simp [rowRegs]⟩)
    · exact foldl_register_mem _ [] (row.2.1, row.2.2)
        (List.mem_flatMap.mpr ⟨row, hrowsmem, by simp [rowRegs]⟩)

/-- Witness for C9 on a one-row derivative file. -/
theorem read_derivative_correct_witness :
    read_derivative ["wd\tka\thh".toList] =
        some [("wd".toList, ["hh".toList]), ("ka".toList, ["hh".toList])] ∧
      ((([("wd".toList, ["hh".toList]), ("ka".toList, ["hh".toList])].map Prod.fst).Nodup ∧
          ∀ kv ∈ [("wd".toList, ["hh".toList]), ("ka".toList, ["hh".toList])],
            List.Nodup kv.2) ∧
        ∀ line ∈ ["wd\tka\thh".toList], ∀ row, parseRow line = some row →
          (∃ vs, assocGet [("wd".toList, ["hh".toList]), ("ka".toList, ["hh".toList])]
              row.1 = some vs ∧ row.2.2 ∈ vs) ∧
          (∃ vs, assocGet [("wd".toList, ["hh".toList]), ("ka".toList, ["hh".toList])]
              row.2.1 = some vs ∧ row.2.2 ∈ vs)) :=
  ⟨by decide, read_derivative_correct ["wd\tka\thh".toList]
    [("wd".toList, ["hh".toList]), ("ka".toList, ["hh".toList])] (by decide)⟩

/-- Counterexample to C9 as stated: two rows with the same key and html
but different katakana.  The claim says the lookup for "k" returns the two
distinct (katakana, html) pairs; the code's loader keeps only the html
strings, deduplicates them, and returns a single-element bucket.  The
spec-shaped pair dictionary (`read_derivative_spec_pairs`) would keep two
variants. -/
theorem read_derivative_pairs_cex :
    read_derivative ["k\ta\tH".toList, "k\tb\tH".toList] =
        some [("k".toList, ["H".toList]), ("a".toList, ["H".toList]),
          ("b".toList, ["H".toList])] ∧
      read_derivative_spec_pairs ["k\ta\tH".toList, "k\tb\tH".toList] =
        some [("k".toList, [("a".toList, "H".toList), ("b".toList, "H".toList)]),
          ("a".toList, [("a".toList, "H".toList)]),
          ("b".toList, [("b".toList, "H".toList)])] := by
  decide
